import Mathlib

/-!
Verification development for a Russian-checkers game (8×8 board, mandatory
captures, flying kings) consisting of a pure rule engine
(`rules/checkersRules.ts`), a minimax bot evaluation (`ai/bot.ts`), and an
optimistic-concurrency game-state service (`services/gameService.ts`).

The rule engine's recursive capture search is embedded with an explicit fuel
parameter (`getCaptureMovesF`); `getCaptureMoves` instantiates the fuel at 64,
which is shown to be adequate: every recursion step captures a fresh in-bounds
board square, of which there are only 64.
-/

namespace Shashki

inductive PlayerColor where
  | WHITE
  | BLACK
  deriving DecidableEq, Repr

inductive GameStatus where
  | WAITING
  | ACTIVE
  | FINISHED
  | DRAW
  deriving DecidableEq, Repr

structure Position where
  row : Int
  col : Int
  deriving DecidableEq, Repr

structure Piece where
  color : PlayerColor
  isKing : Bool
  deriving DecidableEq, Repr

/-- 8×8 grid: `none` is an empty square. -/
abbrev BoardState := List (List (Option Piece))

structure Move where
  fromP : Position
  toP : Position
  captures : List Position
  path : List Position
  becomesKing : Bool
  deriving DecidableEq, Repr

def BOARD_SIZE : Nat := 8

/-- Read entry `c` of a row list (`row[c]`); out of range reads as empty. -/
def getRow : List (Option Piece) → Nat → Option Piece
  | [], _ => none
  | x :: _, 0 => x
  | _ :: xs, n + 1 => getRow xs n

/-- Read square `(r, c)` of a board (`board[r][c]`) by natural indices. -/
def bgetN : BoardState → Nat → Nat → Option Piece
  | [], _, _ => none
  | row :: _, 0, c => getRow row c
  | _ :: rest, r + 1, c => bgetN rest r c

def inBounds (q : Position) : Prop :=
  0 ≤ q.row ∧ q.row < 8 ∧ 0 ≤ q.col ∧ q.col < 8

instance (q : Position) : Decidable (inBounds q) := by
  unfold inBounds; infer_instance

/-- Reads `board[r][c]` with integer coordinates; any out-of-range access reads as
empty, as an 8×8 JS array behaves on the accesses the engine performs. -/
def bget (b : BoardState) (r c : Int) : Option Piece :=
  if 0 ≤ r ∧ r < 8 ∧ 0 ≤ c ∧ c < 8 then bgetN b r.toNat c.toNat else none

def bgetP (b : BoardState) (q : Position) : Option Piece := bget b q.row q.col

/-- Write entry `c` of a row list; out of range is a no-op. -/
def setRow : List (Option Piece) → Nat → Option Piece → List (Option Piece)
  | [], _, _ => []
  | _ :: xs, 0, v => v :: xs
  | x :: xs, n + 1, v => x :: setRow xs n v

/-- Write square `(r, c)` of a board by natural indices. -/
def setBoardN : BoardState → Nat → Nat → Option Piece → BoardState
  | [], _, _, _ => []
  | row :: rest, 0, c, v => setRow row c v :: rest
  | row :: rest, r + 1, c, v => row :: setBoardN rest r c v

/-- Writes `board[q.row][q.col] = v` with integer coordinates (in-bounds writes only,
which is all the engine performs). -/
def bset (b : BoardState) (q : Position) (v : Option Piece) : BoardState :=
  if 0 ≤ q.row ∧ q.row < 8 ∧ 0 ≤ q.col ∧ q.col < 8 then
    setBoardN b q.row.toNat q.col.toNat v
  else b

/-- Transliterates `initializeBoard` from `rules/checkersRules.ts`: three rows of black pieces
on top, three rows of white pieces at the bottom, dark squares only. -/
def initializeBoard : BoardState :=
  (List.range BOARD_SIZE).map fun r =>
    (List.range BOARD_SIZE).map fun c =>
      if (r + c) % 2 = 1 then
        if r < 3 then some ⟨PlayerColor.BLACK, false⟩
        else if r > 4 then some ⟨PlayerColor.WHITE, false⟩
        else none
      else none

/-- Transliterates `cloneBoard`: a deep copy, which under value semantics is the identity. -/
def cloneBoard (board : BoardState) : BoardState :=
  board.map fun row => row.map fun p => p

def directions : List (Int × Int) := [(-1, -1), (-1, 1), (1, -1), (1, 1)]

/-- The squares a scan from `p` in direction `d` visits (`r += dr; c += dc`
until the board edge): the maximal in-bounds prefix of the diagonal. -/
def ray (p : Position) (d : Int × Int) : List Position :=
  ((List.range 7).map fun (i : Nat) =>
      Position.mk (p.row + d.1 * ((i : Int) + 1)) (p.col + d.2 * ((i : Int) + 1))).takeWhile
    fun q => decide (inBounds q)

/-- Transliterates `getSimpleMoves` from `rules/checkersRules.ts`. -/
def getSimpleMoves (board : BoardState) (fromP : Position) (piece : Piece) : List Move :=
  let dirs : List (Int × Int) :=
    if piece.isKing then [(-1, -1), (-1, 1), (1, -1), (1, 1)]
    else if piece.color = PlayerColor.WHITE then [(-1, -1), (-1, 1)]
    else [(1, -1), (1, 1)]
  dirs.flatMap fun d =>
    if piece.isKing then
      ((ray fromP d).takeWhile fun q => (bgetP board q).isNone).map fun q =>
        Move.mk fromP q [] [q] false
    else
      let q : Position := ⟨fromP.row + d.1, fromP.col + d.2⟩
      if inBounds q ∧ bgetP board q = none then
        let isPromotion :=
          (piece.color = PlayerColor.WHITE ∧ q.row = 0) ∨
            (piece.color = PlayerColor.BLACK ∧ q.row = 7)
        [Move.mk fromP q [] [q] (decide isPromotion)]
      else []

/-- The type of the recursive capture-search: board, current position, piece
state, captures so far, captured-in-path so far, landing path so far, and the
absolute start square. -/
abbrev CaptureRec :=
  BoardState → Position → Piece → List Position → List Position → List Position → Position →
    List Move

/-- One valid single capture found (over `q`, landing on `land`): recurse from
the landing square; if the recursion finds nothing the chain ends here and one
`Move` is emitted. -/
def emitOrRecurse (cont : CaptureRec) (board : BoardState) (currentCaptures capturedInPath
    currentPath : List Position) (originalStart : Position) (q land : Position)
    (nextPiece : Piece) (bk : Bool) : List Move :=
  let newCaptures := currentCaptures ++ [q]
  let newCapturedInPath := capturedInPath ++ [q]
  let newPath := currentPath ++ [land]
  let subsequentMoves := cont board land nextPiece newCaptures newCapturedInPath newPath
    originalStart
  if subsequentMoves = [] then [Move.mk originalStart land newCaptures newPath bk]
  else subsequentMoves

/-- King (flying) capture logic of `getCaptureMoves` for one direction: scan
outward; the first occupied square must hold an enemy not already captured;
every square beyond it that is empty (or the vacated start square) is a
landing spot. -/
def kingCapturesInDir (cont : CaptureRec) (board : BoardState) (currentPos : Position)
    (piece : Piece) (currentCaptures capturedInPath currentPath : List Position)
    (originalStart : Position) (d : Int × Int) : List Move :=
  let cells := ray currentPos d
  match cells.dropWhile fun q => (bgetP board q).isNone with
  | [] => []
  | q :: after =>
    match bgetP board q with
    | none => []
    | some cell =>
      if cell.color = piece.color ∨ q ∈ capturedInPath then []
      else
        let lands := after.takeWhile fun l =>
          decide (bgetP board l = none ∨ l = originalStart)
        lands.flatMap fun land =>
          emitOrRecurse cont board currentCaptures capturedInPath currentPath originalStart q
            land piece true

def reachedPromotionRow (color : PlayerColor) (r : Int) : Prop :=
  (color = PlayerColor.WHITE ∧ r = 0) ∨ (color = PlayerColor.BLACK ∧ r = 7)

instance (color : PlayerColor) (r : Int) : Decidable (reachedPromotionRow color r) := by
  unfold reachedPromotionRow; infer_instance

/-- Simple-piece capture logic of `getCaptureMoves` for one direction: the
adjacent square must hold an enemy not already captured, the square beyond
must be empty or the vacated start square; a landing on the promotion row
promotes the simulated piece immediately. -/
def simpleCaptureInDir (cont : CaptureRec) (board : BoardState) (currentPos : Position)
    (piece : Piece) (currentCaptures capturedInPath currentPath : List Position)
    (originalStart : Position) (d : Int × Int) : List Move :=
  let capturePos : Position := ⟨currentPos.row + d.1, currentPos.col + d.2⟩
  let landPos : Position := ⟨currentPos.row + 2 * d.1, currentPos.col + 2 * d.2⟩
  if inBounds landPos then
    match bgetP board capturePos with
    | none => []
    | some midPiece =>
      if midPiece.color = piece.color then []
      else if capturePos ∈ capturedInPath then []
      else if bgetP board landPos = none ∨ landPos = originalStart then
        let reached := decide (reachedPromotionRow piece.color landPos.row)
        let nextPieceState : Piece := ⟨piece.color, reached || piece.isKing⟩
        emitOrRecurse cont board currentCaptures capturedInPath currentPath originalStart
          capturePos landPos nextPieceState (reached || piece.isKing)
      else []
  else []

/-- Transliterates `getCaptureMoves` from `rules/checkersRules.ts`, with explicit fuel
bounding the recursion depth (each level captures one more piece). -/
def getCaptureMovesF : Nat → CaptureRec
  | 0, _, _, _, _, _, _, _ => []
  | fuel + 1, board, currentPos, piece, currentCaptures, capturedInPath, currentPath,
      originalStart =>
    directions.flatMap fun d =>
      if piece.isKing then
        kingCapturesInDir (getCaptureMovesF fuel) board currentPos piece currentCaptures
          capturedInPath currentPath originalStart d
      else
        simpleCaptureInDir (getCaptureMovesF fuel) board currentPos piece currentCaptures
          capturedInPath currentPath originalStart d

/-- The search `getCaptureMovesF` with fuel 64: one unit per captured square, and a chain
can capture at most the 64 squares of the board. -/
def getCaptureMoves : CaptureRec := getCaptureMovesF 64

def allSquares : List (Nat × Nat) :=
  (List.range BOARD_SIZE).flatMap fun r => (List.range BOARD_SIZE).map fun c => (r, c)

/-- The body of the piece loop of `calculateAllowedMoves`: accumulates the
moves found so far and whether any capture was seen. -/
def moveStep (board : BoardState) (turn : PlayerColor) (acc : List Move × Bool)
    (rc : Nat × Nat) : List Move × Bool :=
  match bgetN board rc.1 rc.2 with
  | none => acc
  | some piece =>
    if piece.color = turn then
      let pos : Position := ⟨(rc.1 : Int), (rc.2 : Int)⟩
      let captures := getCaptureMoves board pos piece [] [] [] pos
      let simple := getSimpleMoves board pos piece
      if captures = [] then (acc.1 ++ simple, acc.2) else (acc.1 ++ captures, true)
    else acc

/-- Transliterates `calculateAllowedMoves` from `rules/checkersRules.ts`: collect captures
(or else simple moves) per piece; if any capture exists anywhere, keep only
capture moves. -/
def calculateAllowedMoves (board : BoardState) (turn : PlayerColor) : List Move :=
  let res := allSquares.foldl (moveStep board turn) ([], false)
  if res.2 then res.1.filter fun m => decide (0 < m.captures.length) else res.1

/-- Transliterates `applyMove` from `rules/checkersRules.ts`: clone, move the piece (king
flag ORed with `becomesKing`), then remove every captured square. -/
def applyMove (board : BoardState) (move : Move) : BoardState :=
  let newBoard := cloneBoard board
  match bgetP newBoard move.fromP with
  | none => newBoard
  | some p =>
    let b1 := bset newBoard move.fromP none
    let b2 := bset b1 move.toP (some ⟨p.color, p.isKing || move.becomesKing⟩)
    move.captures.foldl (fun acc c => bset acc c none) b2

/-- The per-piece value summed by `evaluateBoard` in `ai/bot.ts`: material,
center control, pawn advancement, and back-row safety. -/
def pieceValue (p : Piece) (r c : Nat) : Int :=
  let material : Int := if p.isKing then 800 else 100
  let center : Int := if 2 ≤ c ∧ c ≤ 5 ∧ 2 ≤ r ∧ r ≤ 5 then 15 else 0
  let advance : Int :=
    if p.isKing then 0
    else if p.color = PlayerColor.WHITE then ((7 : Int) - (r : Int)) * 8 else (r : Int) * 8
  let backRowWhite : Int :=
    if p.color = PlayerColor.WHITE ∧ r = 7 ∧ p.isKing = false then 40 else 0
  let backRowBlack : Int :=
    if p.color = PlayerColor.BLACK ∧ r = 0 ∧ p.isKing = false then 40 else 0
  material + center + advance + backRowWhite + backRowBlack

/-- Transliterates `evaluateBoard` from `ai/bot.ts`: adds each piece's value for the given
perspective color, subtracts it for the opponent. -/
def evaluateBoard (board : BoardState) (color : PlayerColor) : Int :=
  allSquares.foldl
    (fun score rc =>
      match bgetN board rc.1 rc.2 with
      | none => score
      | some p =>
        if p.color = color then score + pieceValue p rc.1 rc.2
        else score - pieceValue p rc.1 rc.2)
    0

structure LastMove where
  fromP : Position
  toP : Position
  path : Option (List Position)
  ts : Nat
  deriving DecidableEq, Repr

structure PrevState where
  board : BoardState
  turn : PlayerColor
  halfMoveClock : Nat
  lastMove : Option LastMove
  deriving DecidableEq, Repr

structure TakebackRequest where
  requesterId : String
  createdAt : Nat
  deriving DecidableEq, Repr

structure Players where
  white : Option String
  black : Option String
  deriving DecidableEq, Repr

/-- Transliterates `GameData` from `types.ts` (the Firestore record); the board is stored
directly rather than JSON-stringified, and timestamps are explicit inputs. -/
structure GameData where
  board : BoardState
  turn : PlayerColor
  players : Players
  status : GameStatus
  winner : Option PlayerColor
  version : Nat
  lastMove : Option LastMove
  halfMoveClock : Nat
  rematchId : Option String
  createdAt : Nat
  expireAt : Nat
  isRandomColor : Bool
  previousState : Option PrevState
  takebackRequest : Option TakebackRequest
  deriving DecidableEq, Repr

inductive GameError where
  | gameNotFound
  | gameFull
  | versionConflict
  deriving DecidableEq, Repr

/-- Transliterates `joinGame` from `services/gameService.ts`, acting on the record the
transaction read: idempotent rejoin, else fill the single empty slot, else
the game is full. -/
def joinGame (stored : GameData) (playerId : String) : Except GameError GameData :=
  if stored.players.white = some playerId ∨ stored.players.black = some playerId then
    Except.ok stored
  else if stored.players.black = none ∧ stored.players.white ≠ none then
    Except.ok { stored with
      players := ⟨stored.players.white, some playerId⟩
      status := GameStatus.ACTIVE
      version := stored.version + 1 }
  else if stored.players.white = none ∧ stored.players.black ≠ none then
    Except.ok { stored with
      players := ⟨some playerId, stored.players.black⟩
      status := GameStatus.ACTIVE
      version := stored.version + 1 }
  else Except.error GameError.gameFull

/-- The white/whiteKing/black/blackKing counts `performMove` computes. -/
def countPieces (board : BoardState) : Nat × Nat × Nat × Nat :=
  allSquares.foldl
    (fun acc rc =>
      match bgetN board rc.1 rc.2 with
      | none => acc
      | some p =>
        if p.color = PlayerColor.WHITE then
          (acc.1 + 1, (if p.isKing then acc.2.1 + 1 else acc.2.1), acc.2.2.1, acc.2.2.2)
        else
          (acc.1, acc.2.1, acc.2.2.1 + 1, if p.isKing then acc.2.2.2 + 1 else acc.2.2.2))
    (0, 0, 0, 0)

def oneDayMs : Nat := 24 * 60 * 60 * 1000

/-- Transliterates `performMove` from `services/gameService.ts` (the commitMove operation):
`gameData` is the caller's snapshot, `stored` the record the transaction
reads fresh, `now` the wall clock. Fails with `versionConflict` when the
stored version differs from the snapshot's. -/
def performMove (now : Nat) (stored : GameData) (gameData : GameData) (move : Move)
    (nextTurn : PlayerColor) : Except GameError GameData :=
  let currentBoard := gameData.board
  let movingPiece := bgetP currentBoard move.fromP
  let isPawnMove := match movingPiece with | some p => !p.isKing | none => false
  let isCapture := decide (0 < move.captures.length)
  let newBoard := applyMove currentBoard move
  let nextPlayerMoves := calculateAllowedMoves newBoard nextTurn
  let statusA := if nextPlayerMoves = [] then GameStatus.FINISHED else gameData.status
  let winner := if nextPlayerMoves = [] then some gameData.turn else none
  let counts := countPieces newBoard
  let statusB :=
    if statusA ≠ GameStatus.FINISHED ∧ counts.1 = 1 ∧ counts.2.1 = 1 ∧ counts.2.2.1 = 1 ∧
        counts.2.2.2 = 1 then
      GameStatus.DRAW
    else statusA
  if stored.version ≠ gameData.version then Except.error GameError.versionConflict
  else
    let newHalfMoveClock := if isPawnMove || isCapture then 0 else stored.halfMoveClock + 1
    let statusC :=
      if statusB ≠ GameStatus.FINISHED ∧ statusB ≠ GameStatus.DRAW ∧ 60 ≤ newHalfMoveClock then
        GameStatus.DRAW
      else statusB
    let previousState : PrevState :=
      ⟨stored.board, stored.turn, stored.halfMoveClock, stored.lastMove⟩
    Except.ok { stored with
      board := newBoard
      turn := nextTurn
      lastMove := some ⟨move.fromP, move.toP, some move.path, now⟩
      halfMoveClock := newHalfMoveClock
      status := statusC
      winner := winner
      version := stored.version + 1
      expireAt := now + oneDayMs
      previousState := some previousState
      takebackRequest := none }

/-- The stored record after running `performMove` as a transaction: an error
aborts the transaction, leaving the stored record untouched. -/
def performMoveTx (now : Nat) (stored : Option GameData) (gameData : GameData) (move : Move)
    (nextTurn : PlayerColor) : Option GameData × Option GameError :=
  match stored with
  | none => (none, some GameError.gameNotFound)
  | some s =>
    match performMove now s gameData move nextTurn with
    | Except.ok g => (some g, none)
    | Except.error e => (some s, some e)

/-- Transliterates `resolveTakeback` from `services/gameService.ts`, acting on the record the
transaction read. -/
def resolveTakeback (stored : GameData) (accepted : Bool) : GameData :=
  if !accepted then { stored with takebackRequest := none }
  else
    match stored.previousState with
    | some prev =>
      { stored with
        board := prev.board
        turn := prev.turn
        halfMoveClock := prev.halfMoveClock
        lastMove := prev.lastMove
        previousState := none
        takebackRequest := none
        version := stored.version + 1 }
    | none => { stored with takebackRequest := none }

/-- An 8×8 board: what every board handled by the TS engine is. -/
def WF (b : BoardState) : Prop := b.length = 8 ∧ ∀ row ∈ b, row.length = 8

instance (b : BoardState) : Decidable (WF b) := by
  unfold WF; infer_instance

/-- Whether the piece on square `rc` (if any) belongs to `turn` and has at
least one capture chain available, exactly as the piece loop of
`calculateAllowedMoves` tests it. -/
def squareHasCapture (board : BoardState) (turn : PlayerColor) (rc : Nat × Nat) : Bool :=
  match bgetN board rc.1 rc.2 with
  | none => false
  | some piece =>
    decide (piece.color = turn) &&
      !(getCaptureMoves board ⟨(rc.1 : Int), (rc.2 : Int)⟩ piece [] [] []
          ⟨(rc.1 : Int), (rc.2 : Int)⟩).isEmpty

/-- Whether any piece of `turn` anywhere on the board has an available
capture chain. -/
def hasAnyCapture (board : BoardState) (turn : PlayerColor) : Bool :=
  allSquares.any (squareHasCapture board turn)

/-- An 8×8 board of empty squares, for concrete test positions. -/
def emptyBoard : BoardState :=
  (List.range BOARD_SIZE).map fun _ => (List.range BOARD_SIZE).map fun _ => none

/-- Test position for the double-capture scenario: a white pawn at (5,4) and
black pawns at (4,3) and (2,1), with both landing squares empty. -/
def c5board : BoardState :=
  setBoardN (setBoardN (setBoardN emptyBoard 5 4 (some ⟨PlayerColor.WHITE, false⟩))
    4 3 (some ⟨PlayerColor.BLACK, false⟩)) 2 1 (some ⟨PlayerColor.BLACK, false⟩)

/-- Test position for mid-chain promotion: a white pawn at (2,1) jumps the
black pawn at (1,2), lands on the promotion row at (0,3), and can then only
continue by a king-style flying capture of the black pawn at (2,5). -/
def c4board : BoardState :=
  setBoardN (setBoardN (setBoardN emptyBoard 2 1 (some ⟨PlayerColor.WHITE, false⟩))
    1 2 (some ⟨PlayerColor.BLACK, false⟩)) 2 5 (some ⟨PlayerColor.BLACK, false⟩)

/-- A concrete active game record, used in witnesses. -/
def sampleGame : GameData :=
  ⟨initializeBoard, PlayerColor.WHITE, ⟨some "w", some "b"⟩, GameStatus.ACTIVE, none, 0,
    none, 0, none, 0, 0, false, none, none⟩

/-- Record `sampleGame` with a pending takeback request and no stored history. -/
def sampleGameWithRequest : GameData :=
  { sampleGame with takebackRequest := some ⟨"w", 0⟩ }

/-- A record in which both player slots are empty. -/
def emptyPlayersGame : GameData :=
  { sampleGame with players := ⟨none, none⟩ }

/-- Pieces occupy only dark squares: wherever a piece sits, row+col is odd. -/
def darkOnly (b : BoardState) : Prop :=
  ∀ (r c : Nat) (p : Piece), bgetN b r c = some p → (r + c) % 2 = 1

/-- Boards reachable from the initial board by repeatedly applying, for
either side, a move returned by `calculateAllowedMoves`. -/
inductive Reachable : BoardState → Prop where
  | init : Reachable initializeBoard
  | step (b : BoardState) (turn : PlayerColor) (m : Move) : Reachable b →
      m ∈ calculateAllowedMoves b turn → Reachable (applyMove b m)

/-- The 64 in-bounds squares, as positions. -/
def allPositions : List Position :=
  (List.range 8).flatMap fun (r : Nat) =>
    (List.range 8).map fun (c : Nat) => ⟨(r : Int), (c : Int)⟩

/-! ### Basic facts about the move generators -/

theorem getSimpleMoves_captures {board : BoardState} {fromP : Position} {piece : Piece}
    {m : Move} (hm : m ∈ getSimpleMoves board fromP piece) : m.captures = [] := by
  unfold getSimpleMoves at hm
  rw [List.mem_flatMap] at hm
  obtain ⟨d, _, hm⟩ := hm
  by_cases hk : piece.isKing = true
  · rw [if_pos hk] at hm
    obtain ⟨q, _, rfl⟩ := List.mem_map.mp hm
    rfl
  · rw [if_neg hk] at hm
    simp only [] at hm
    split at hm
    · rw [List.mem_singleton] at hm
      subst hm
      rfl
    · simp at hm

theorem emitOrRecurse_mem {cont : CaptureRec} {board : BoardState}
    {cc cip cp : List Position} {orig q land : Position} {nextPiece : Piece} {bk : Bool}
    {m : Move} (hm : m ∈ emitOrRecurse cont board cc cip cp orig q land nextPiece bk) :
    (cont board land nextPiece (cc ++ [q]) (cip ++ [q]) (cp ++ [land]) orig = [] ∧
        m = Move.mk orig land (cc ++ [q]) (cp ++ [land]) bk) ∨
      m ∈ cont board land nextPiece (cc ++ [q]) (cip ++ [q]) (cp ++ [land]) orig := by
  unfold emitOrRecurse at hm
  by_cases h : cont board land nextPiece (cc ++ [q]) (cip ++ [q]) (cp ++ [land]) orig = []
  · simp only [h, if_true, List.mem_singleton] at hm
    exact Or.inl ⟨h, hm⟩
  · simp only [h, if_false] at hm
    exact Or.inr hm

theorem kingCapturesInDir_mem {cont : CaptureRec} {board : BoardState} {currentPos : Position}
    {piece : Piece} {cc cip cp : List Position} {orig : Position} {d : Int × Int} {m : Move}
    (hm : m ∈ kingCapturesInDir cont board currentPos piece cc cip cp orig d) :
    ∃ q land cell, bgetP board q = some cell ∧ cell.color ≠ piece.color ∧ q ∉ cip ∧
      q ∈ ray currentPos d ∧ land ∈ ray currentPos d ∧
      m ∈ emitOrRecurse cont board cc cip cp orig q land piece true := by
  unfold kingCapturesInDir at hm
  simp only [] at hm
  split at hm
  · simp at hm
  next q after hdrop =>
    split at hm
    · simp at hm
    next cell hcell =>
      split at hm
      · simp at hm
      next hguard =>
        push_neg at hguard
        rw [List.mem_flatMap] at hm
        obtain ⟨land, hland, hm⟩ := hm
        have hsub : List.Sublist (q :: after) (ray currentPos d) := by
          rw [← hdrop]; exact List.dropWhile_sublist _
        refine ⟨q, land, cell, hcell, hguard.1, hguard.2, ?_, ?_, hm⟩
        · exact hsub.subset (List.mem_cons_self _ _)
        · have h1 : land ∈ after := (List.takeWhile_sublist _).subset hland
          exact hsub.subset (List.mem_cons_of_mem _ h1)

theorem simpleCaptureInDir_mem {cont : CaptureRec} {board : BoardState} {currentPos : Position}
    {piece : Piece} {cc cip cp : List Position} {orig : Position} {d : Int × Int} {m : Move}
    (hm : m ∈ simpleCaptureInDir cont board currentPos piece cc cip cp orig d) :
    ∃ midPiece, bgetP board ⟨currentPos.row + d.1, currentPos.col + d.2⟩ = some midPiece ∧
      midPiece.color ≠ piece.color ∧
      (⟨currentPos.row + d.1, currentPos.col + d.2⟩ : Position) ∉ cip ∧
      m ∈ emitOrRecurse cont board cc cip cp orig
          ⟨currentPos.row + d.1, currentPos.col + d.2⟩
          ⟨currentPos.row + 2 * d.1, currentPos.col + 2 * d.2⟩
          ⟨piece.color,
            decide (reachedPromotionRow piece.color (currentPos.row + 2 * d.1)) || piece.isKing⟩
          (decide (reachedPromotionRow piece.color (currentPos.row + 2 * d.1)) ||
            piece.isKing) := by
  unfold simpleCaptureInDir at hm
  simp only [] at hm
  split at hm
  · split at hm
    · simp at hm
    next midPiece hmid =>
      split at hm
      · simp at hm
      next hcolor =>
        split at hm
        · simp at hm
        next hcip =>
          split at hm
          · exact ⟨midPiece, hmid, hcolor, hcip, hm⟩
          · simp at hm
  · simp at hm

theorem getCaptureMovesF_mem {fuel : Nat} {board : BoardState} {currentPos : Position}
    {piece : Piece} {cc cip cp : List Position} {orig : Position} {m : Move}
    (hm : m ∈ getCaptureMovesF (fuel + 1) board currentPos piece cc cip cp orig) :
    ∃ d ∈ directions,
      m ∈ (if piece.isKing = true then
            kingCapturesInDir (getCaptureMovesF fuel) board currentPos piece cc cip cp orig d
          else
            simpleCaptureInDir (getCaptureMovesF fuel) board currentPos piece cc cip cp
              orig d) := by
  unfold getCaptureMovesF at hm
  rw [List.mem_flatMap] at hm
  obtain ⟨d, hd, hm⟩ := hm
  exact ⟨d, hd, hm⟩

/-! ### C6: no double capture of a single piece within one chain -/

theorem getCaptureMovesF_nodup (fuel : Nat) :
    ∀ (board : BoardState) (currentPos : Position) (piece : Piece)
      (cc cip cp : List Position) (orig : Position) (m : Move), cc = cip → cip.Nodup →
      m ∈ getCaptureMovesF fuel board currentPos piece cc cip cp orig →
      m.captures.Nodup := by
  induction fuel with
  | zero =>
    intro board pos piece cc cip cp orig m _ _ hm
    simp [getCaptureMovesF] at hm
  | succ n ih =>
    intro board pos piece cc cip cp orig m hcc hnd hm
    obtain ⟨d, _, hm⟩ := getCaptureMovesF_mem hm
    have key : ∀ (q land : Position) (nextPiece : Piece) (bk : Bool), q ∉ cip →
        m ∈ emitOrRecurse (getCaptureMovesF n) board cc cip cp orig q land nextPiece bk →
        m.captures.Nodup := by
      intro q land nextPiece bk hq hmem
      have hnd' : (cip ++ [q]).Nodup := by
        simp [List.nodup_append, hnd, hq]
      rcases emitOrRecurse_mem hmem with ⟨_, rfl⟩ | hsub
      · show (cc ++ [q]).Nodup
        rw [hcc]
        exact hnd'
      · exact ih board land nextPiece (cc ++ [q]) (cip ++ [q]) (cp ++ [land]) orig m
          (by rw [hcc]) hnd' hsub
    by_cases hk : piece.isKing = true
    · rw [if_pos hk] at hm
      obtain ⟨q, land, cell, _, _, hq, _, _, hmem⟩ := kingCapturesInDir_mem hm
      exact key q land piece true hq hmem
    · rw [if_neg hk] at hm
      obtain ⟨mid, _, _, hq, hmem⟩ := simpleCaptureInDir_mem hm
      exact key _ _ _ _ hq hmem

/-- Which move-generator call each move collected by the piece loop of
`calculateAllowedMoves` comes from. -/
theorem foldl_moveStep_mem (board : BoardState) (turn : PlayerColor) :
    ∀ (l : List (Nat × Nat)) (acc : List Move × Bool) (m : Move),
      m ∈ (l.foldl (moveStep board turn) acc).1 →
      m ∈ acc.1 ∨ ∃ rc, rc ∈ l ∧ ∃ piece, bgetN board rc.1 rc.2 = some piece ∧
        piece.color = turn ∧
        (m ∈ getCaptureMoves board ⟨(rc.1 : Int), (rc.2 : Int)⟩ piece [] [] []
            ⟨(rc.1 : Int), (rc.2 : Int)⟩ ∨
          m ∈ getSimpleMoves board ⟨(rc.1 : Int), (rc.2 : Int)⟩ piece) := by
  intro l
  induction l with
  | nil => intro acc m hm; exact Or.inl hm
  | cons rc tail ih =>
    intro acc m hm
    rw [List.foldl_cons] at hm
    rcases ih (moveStep board turn acc rc) m hm with hacc | ⟨rc', h1, h2⟩
    · unfold moveStep at hacc
      split at hacc
      · exact Or.inl hacc
      next piece hpiece =>
        split at hacc
        next hcolor =>
          simp only [] at hacc
          split at hacc
          · rcases List.mem_append.mp hacc with h | h
            · exact Or.inl h
            · exact Or.inr ⟨rc, List.mem_cons_self _ _, piece, hpiece, hcolor, Or.inr h⟩
          · rcases List.mem_append.mp hacc with h | h
            · exact Or.inl h
            · exact Or.inr ⟨rc, List.mem_cons_self _ _, piece, hpiece, hcolor, Or.inl h⟩
        · exact Or.inl hacc
    · exact Or.inr ⟨rc', List.mem_cons_of_mem _ h1, h2⟩

theorem calculateAllowedMoves_mem {board : BoardState} {turn : PlayerColor} {m : Move}
    (hm : m ∈ calculateAllowedMoves board turn) :
    ∃ rc, rc ∈ allSquares ∧ ∃ piece, bgetN board rc.1 rc.2 = some piece ∧
      piece.color = turn ∧
      (m ∈ getCaptureMoves board ⟨(rc.1 : Int), (rc.2 : Int)⟩ piece [] [] []
          ⟨(rc.1 : Int), (rc.2 : Int)⟩ ∨
        m ∈ getSimpleMoves board ⟨(rc.1 : Int), (rc.2 : Int)⟩ piece) := by
  unfold calculateAllowedMoves at hm
  simp only [] at hm
  have hsub : m ∈ (allSquares.foldl (moveStep board turn) ([], false)).1 := by
    split at hm
    · exact List.mem_of_mem_filter hm
    · exact hm
  rcases foldl_moveStep_mem board turn allSquares ([], false) m hsub with h | h
  · simp at h
  · exact h

/-- C6: for every move returned by `calculateAllowedMoves`, no board position
occurs twice in its captures list — an enemy piece already captured within a
chain is never captured again in that same chain. -/
theorem calculateAllowedMoves_captures_nodup (board : BoardState) (turn : PlayerColor)
    (m : Move) (hm : m ∈ calculateAllowedMoves board turn) : m.captures.Nodup := by
  obtain ⟨rc, _, piece, _, _, hcap | hsim⟩ := calculateAllowedMoves_mem hm
  · exact getCaptureMovesF_nodup 64 _ _ _ _ _ _ _ _ rfl List.nodup_nil hcap
  · rw [getSimpleMoves_captures hsim]
    exact List.nodup_nil

theorem calculateAllowedMoves_captures_nodup_witness :
    (Move.mk ⟨5, 4⟩ ⟨1, 0⟩ [⟨4, 3⟩, ⟨2, 1⟩] [⟨3, 2⟩, ⟨1, 0⟩] false).captures.Nodup :=
  calculateAllowedMoves_captures_nodup c5board PlayerColor.WHITE _ (by decide)

/-! ### C4: mid-chain promotion -/

/-- Every capture chain found for a piece that is already a king is emitted
with `becomesKing = true`. -/
theorem getCaptureMovesF_king_becomesKing (fuel : Nat) :
    ∀ (board : BoardState) (currentPos : Position) (piece : Piece)
      (cc cip cp : List Position) (orig : Position) (m : Move), piece.isKing = true →
      m ∈ getCaptureMovesF fuel board currentPos piece cc cip cp orig →
      m.becomesKing = true := by
  induction fuel with
  | zero =>
    intro _ _ _ _ _ _ _ _ _ hm
    simp [getCaptureMovesF] at hm
  | succ n ih =>
    intro board pos piece cc cip cp orig m hk hm
    obtain ⟨d, _, hm⟩ := getCaptureMovesF_mem hm
    rw [if_pos hk] at hm
    obtain ⟨q, land, cell, _, _, _, _, _, hmem⟩ := kingCapturesInDir_mem hm
    rcases emitOrRecurse_mem hmem with ⟨_, rfl⟩ | hsub
    · rfl
    · exact ih board land piece _ _ _ orig m hk hsub

/-- A chain found for a non-king piece either is emitted with
`becomesKing = true`, or never lands on the promotion row at any new square
of its path. -/
theorem getCaptureMovesF_pawn_path (fuel : Nat) :
    ∀ (board : BoardState) (currentPos : Position) (piece : Piece)
      (cc cip cp : List Position) (orig : Position) (m : Move), piece.isKing = false →
      m ∈ getCaptureMovesF fuel board currentPos piece cc cip cp orig →
      m.becomesKing = true ∨
        ∀ q ∈ m.path, q ∈ cp ∨ ¬reachedPromotionRow piece.color q.row := by
  induction fuel with
  | zero =>
    intro _ _ _ _ _ _ _ _ _ hm
    simp [getCaptureMovesF] at hm
  | succ n ih =>
    intro board pos piece cc cip cp orig m hk hm
    obtain ⟨d, _, hm⟩ := getCaptureMovesF_mem hm
    rw [if_neg (by rw [hk]; exact Bool.false_ne_true)] at hm
    obtain ⟨mid, hmid, hcol, hcip, hmem⟩ := simpleCaptureInDir_mem hm
    by_cases hr : reachedPromotionRow piece.color (pos.row + 2 * d.1)
    · rcases emitOrRecurse_mem hmem with ⟨_, rfl⟩ | hsub
      · left
        show (decide (reachedPromotionRow piece.color (pos.row + 2 * d.1)) ||
          piece.isKing) = true
        simp [hr]
      · left
        exact getCaptureMovesF_king_becomesKing n _ _ _ _ _ _ _ _ (by simp [hr]) hsub
    · rcases emitOrRecurse_mem hmem with ⟨_, rfl⟩ | hsub
      · right
        intro q hq
        rcases List.mem_append.mp hq with h | h
        · exact Or.inl h
        · rw [List.mem_singleton] at h
          subst h
          exact Or.inr hr
      · have hk' : (Piece.mk piece.color
            (decide (reachedPromotionRow piece.color (pos.row + 2 * d.1)) ||
              piece.isKing)).isKing = false := by
          simp [hr, hk]
        rcases ih _ _ _ _ _ _ _ _ hk' hsub with h | h
        · exact Or.inl h
        · right
          intro q hq
          rcases h q hq with hq' | hq'
          · rcases List.mem_append.mp hq' with h2 | h2
            · exact Or.inl h2
            · rw [List.mem_singleton] at h2
              subst h2
              exact Or.inr hr
          · exact Or.inr hq'

/-- C4: during capture-chain generation, a regular piece that lands on its
promotion row mid-chain is promoted immediately — every emitted move whose
path touches the promotion row has `becomesKing = true` — and subsequent
jumps from the landing square use king-style flying logic, as the concrete
continuation below exhibits: from the promotion square (0,3) the piece
captures (2,5) at flying distance two with a choice of landing squares. -/
theorem getCaptureMoves_midchain_promotion :
    (∀ (board : BoardState) (startPos : Position) (piece : Piece) (m : Move),
        piece.isKing = false →
        m ∈ getCaptureMoves board startPos piece [] [] [] startPos →
        (∃ q ∈ m.path, reachedPromotionRow piece.color q.row) →
        m.becomesKing = true) ∧
      getCaptureMoves c4board ⟨2, 1⟩ ⟨PlayerColor.WHITE, false⟩ [] [] [] ⟨2, 1⟩ =
        [Move.mk ⟨2, 1⟩ ⟨3, 6⟩ [⟨1, 2⟩, ⟨2, 5⟩] [⟨0, 3⟩, ⟨3, 6⟩] true,
          Move.mk ⟨2, 1⟩ ⟨4, 7⟩ [⟨1, 2⟩, ⟨2, 5⟩] [⟨0, 3⟩, ⟨4, 7⟩] true] := by
  constructor
  · rintro board startPos piece m hk hm ⟨q, hq, hr⟩
    rcases getCaptureMovesF_pawn_path 64 board startPos piece [] [] [] startPos m hk hm
      with h | h
    · exact h
    · rcases h q hq with h2 | h2
      · simp at h2
      · exact absurd hr h2
  · decide

theorem getCaptureMoves_midchain_promotion_witness :
    (Move.mk ⟨2, 1⟩ ⟨3, 6⟩ [⟨1, 2⟩, ⟨2, 5⟩] [⟨0, 3⟩, ⟨3, 6⟩] true).becomesKing = true :=
  getCaptureMoves_midchain_promotion.1 c4board ⟨2, 1⟩ ⟨PlayerColor.WHITE, false⟩ _ rfl
    (by decide) ⟨⟨0, 3⟩, by decide, by decide⟩

/-! ### C1: the mandatory-capture rule -/

theorem moveStep_snd (board : BoardState) (turn : PlayerColor) (acc : List Move × Bool)
    (rc : Nat × Nat) :
    (moveStep board turn acc rc).2 = (acc.2 || squareHasCapture board turn rc) := by
  unfold moveStep squareHasCapture
  split
  · simp
  next piece hpiece =>
    by_cases hcolor : piece.color = turn
    · rw [if_pos hcolor]
      simp only []
      split
      next hcap => simp [hcap, hcolor]
      next hcap => simp [hcap, hcolor, List.isEmpty_iff]
    · rw [if_neg hcolor]
      simp [hcolor]

theorem foldl_moveStep_snd (board : BoardState) (turn : PlayerColor) :
    ∀ (l : List (Nat × Nat)) (acc : List Move × Bool),
      (l.foldl (moveStep board turn) acc).2 =
        (acc.2 || l.any (squareHasCapture board turn)) := by
  intro l
  induction l with
  | nil => intro acc; simp
  | cons rc tail ih =>
    intro acc
    rw [List.foldl_cons, ih, List.any_cons, moveStep_snd, Bool.or_assoc]

theorem moveStep_fst_captures (board : BoardState) (turn : PlayerColor)
    (acc : List Move × Bool) (rc : Nat × Nat)
    (hacc : ∀ m ∈ acc.1, m.captures = ([] : List Position))
    (hsq : squareHasCapture board turn rc = false) :
    ∀ m ∈ (moveStep board turn acc rc).1, m.captures = [] := by
  unfold moveStep
  unfold squareHasCapture at hsq
  split
  · exact hacc
  next piece hpiece =>
    rw [hpiece] at hsq
    by_cases hcolor : piece.color = turn
    · rw [if_pos hcolor]
      simp only []
      split
      next hcap =>
        intro m hm
        rcases List.mem_append.mp hm with h | h
        · exact hacc m h
        · exact getSimpleMoves_captures h
      next hcap =>
        exfalso
        simp [hcolor, List.isEmpty_iff, hcap] at hsq
    · rw [if_neg hcolor]
      exact hacc

theorem foldl_moveStep_simple (board : BoardState) (turn : PlayerColor) :
    ∀ (l : List (Nat × Nat)) (acc : List Move × Bool),
      (∀ m ∈ acc.1, m.captures = ([] : List Position)) →
      (∀ rc ∈ l, squareHasCapture board turn rc = false) →
      ∀ m ∈ (l.foldl (moveStep board turn) acc).1, m.captures = [] := by
  intro l
  induction l with
  | nil =>
    intro acc hacc _
    simpa using hacc
  | cons rc tail ih =>
    intro acc hacc hl
    rw [List.foldl_cons]
    exact ih _ (moveStep_fst_captures board turn acc rc hacc (hl rc (List.mem_cons_self _ _)))
      fun rc2 h => hl rc2 (List.mem_cons_of_mem _ h)

/-- C1: if any piece of the side to move has at least one available capture
chain, every move returned by `calculateAllowedMoves` is a capture move
(a simple move is never returned); otherwise every returned move is a simple
move with an empty captures list. -/
theorem calculateAllowedMoves_mandatory_capture (board : BoardState) (turn : PlayerColor) :
    (hasAnyCapture board turn = true →
      ∀ m ∈ calculateAllowedMoves board turn, m.captures ≠ []) ∧
    (hasAnyCapture board turn = false →
      ∀ m ∈ calculateAllowedMoves board turn, m.captures = []) := by
  have hsnd : (allSquares.foldl (moveStep board turn) ([], false)).2 =
      hasAnyCapture board turn := by
    rw [foldl_moveStep_snd]
    simp [hasAnyCapture]
  constructor
  · intro h m hm
    unfold calculateAllowedMoves at hm
    simp only [] at hm
    rw [hsnd, h, if_pos rfl] at hm
    have hfil := List.of_mem_filter hm
    simp only [decide_eq_true_eq, List.length_pos] at hfil
    exact hfil
  · intro h m hm
    unfold calculateAllowedMoves at hm
    simp only [] at hm
    rw [hsnd, h] at hm
    simp only [Bool.false_eq_true, if_false] at hm
    refine foldl_moveStep_simple board turn allSquares ([], false) (by simp) ?_ m hm
    intro rc hrc
    unfold hasAnyCapture at h
    rw [List.any_eq_false] at h
    simpa using h rc hrc

theorem calculateAllowedMoves_mandatory_capture_witness :
    (Move.mk ⟨5, 4⟩ ⟨1, 0⟩ [⟨4, 3⟩, ⟨2, 1⟩] [⟨3, 2⟩, ⟨1, 0⟩] false).captures ≠ [] :=
  (calculateAllowedMoves_mandatory_capture c5board PlayerColor.WHITE).1 (by decide) _
    (by decide)

/-! ### C8: evaluation antisymmetry -/

/-- C8: the static evaluation is antisymmetric in the perspective color:
for every board, `evaluateBoard board WHITE = -evaluateBoard board BLACK`
exactly. -/
theorem evaluateBoard_antisymm (board : BoardState) :
    evaluateBoard board PlayerColor.WHITE = - evaluateBoard board PlayerColor.BLACK := by
  unfold evaluateBoard
  have main : ∀ (l : List (Nat × Nat)) (a : Int),
      l.foldl
        (fun score rc =>
          match bgetN board rc.1 rc.2 with
          | none => score
          | some p =>
            if p.color = PlayerColor.WHITE then score + pieceValue p rc.1 rc.2
            else score - pieceValue p rc.1 rc.2) a =
      - l.foldl
        (fun score rc =>
          match bgetN board rc.1 rc.2 with
          | none => score
          | some p =>
            if p.color = PlayerColor.BLACK then score + pieceValue p rc.1 rc.2
            else score - pieceValue p rc.1 rc.2) (-a) := by
    intro l
    induction l with
    | nil => intro a; simp
    | cons rc tail ih =>
      intro a
      rw [List.foldl_cons, List.foldl_cons, ih]
      have hacc : ((match bgetN board rc.1 rc.2 with
          | none => -a
          | some p =>
            if p.color = PlayerColor.BLACK then -a + pieceValue p rc.1 rc.2
            else -a - pieceValue p rc.1 rc.2 : Int)) =
          -((match bgetN board rc.1 rc.2 with
          | none => a
          | some p =>
            if p.color = PlayerColor.WHITE then a + pieceValue p rc.1 rc.2
            else a - pieceValue p rc.1 rc.2 : Int)) := by
        rcases h : bgetN board rc.1 rc.2 with _ | p
        · simp
        · cases hc : p.color
          · simp [hc]
            ring
          · simp [hc]
            ring
      rw [hacc]
  simpa using main allSquares 0

/-! ### C2: stale-version commit fails and leaves the record unchanged -/

/-- C2: committing a move whose caller snapshot has a version different from
the stored record's current version fails with the version-conflict error,
and the stored record — every field — is left completely unchanged. -/
theorem performMove_versionConflict (now : Nat) (stored gameData : GameData) (move : Move)
    (nextTurn : PlayerColor) (h : stored.version ≠ gameData.version) :
    performMoveTx now (some stored) gameData move nextTurn =
      (some stored, some GameError.versionConflict) := by
  have hpm : performMove now stored gameData move nextTurn =
      Except.error GameError.versionConflict := by
    unfold performMove
    simp only []
    rw [if_pos h]
  unfold performMoveTx
  simp only [hpm]

theorem performMove_versionConflict_witness :
    performMoveTx 0 (some sampleGame) { sampleGame with version := 1 }
        (Move.mk ⟨5, 0⟩ ⟨4, 1⟩ [] [⟨4, 1⟩] false) PlayerColor.BLACK =
      (some sampleGame, some GameError.versionConflict) :=
  performMove_versionConflict 0 sampleGame { sampleGame with version := 1 }
    (Move.mk ⟨5, 0⟩ ⟨4, 1⟩ [] [⟨4, 1⟩] false) PlayerColor.BLACK (by decide)

/-! ### C9: resolving a takeback without restoring state -/

/-- C9 counterexample: rejecting a takeback clears the request but does NOT
increment the version — it stays 0 rather than becoming 1 as the claim
states. -/
theorem resolveTakeback_no_increment :
    (resolveTakeback sampleGameWithRequest false).takebackRequest = none ∧
      (resolveTakeback sampleGameWithRequest false).version = 0 ∧
      (resolveTakeback sampleGameWithRequest false).version ≠
        sampleGameWithRequest.version + 1 := by
  refine ⟨rfl, rfl, ?_⟩
  decide

/-- C9 (amended): resolveTakeback with accepted = false, or with accepted =
true while previousState is absent, clears takebackRequest and leaves every
other field — board, turn, halfMoveClock, and in particular the version —
unchanged. -/
theorem resolveTakeback_clears_request (stored : GameData) (accepted : Bool)
    (h : accepted = false ∨ stored.previousState = none) :
    resolveTakeback stored accepted = { stored with takebackRequest := none } := by
  unfold resolveTakeback
  rcases h with h | h
  · rw [h]
    simp
  · by_cases ha : accepted = true
    · rw [ha]
      simp only [Bool.not_true, Bool.false_eq_true, if_false]
      rw [h]
    · have ha2 : accepted = false := by
        cases accepted
        · rfl
        · exact absurd rfl ha
      rw [ha2]
      simp

theorem resolveTakeback_clears_request_witness :
    resolveTakeback sampleGameWithRequest false =
      { sampleGameWithRequest with takebackRequest := none } :=
  resolveTakeback_clears_request sampleGameWithRequest false (Or.inl rfl)

/-! ### C10: joining a game with both slots empty -/

/-- C10: if a record has both player slots empty, `joinGame` fails with the
game-full error and seats no one; and a joiner who is not already a
participant is only ever seated when exactly one slot is empty. -/
theorem joinGame_gameFull_both_empty :
    (∀ (stored : GameData) (playerId : String), stored.players.white = none →
        stored.players.black = none →
        joinGame stored playerId = Except.error GameError.gameFull) ∧
      ∀ (stored : GameData) (playerId : String) (g : GameData),
        stored.players.white ≠ some playerId → stored.players.black ≠ some playerId →
        joinGame stored playerId = Except.ok g →
        (stored.players.black = none ∧ stored.players.white ≠ none) ∨
          (stored.players.white = none ∧ stored.players.black ≠ none) := by
  constructor
  · intro stored pid hw hb
    unfold joinGame
    rw [if_neg (by simp [hw, hb]), if_neg (by simp [hw, hb]), if_neg (by simp [hw, hb])]
  · intro stored pid g hw hb hok
    unfold joinGame at hok
    by_cases h1 : stored.players.white = some pid ∨ stored.players.black = some pid
    · exact absurd h1 (by tauto)
    rw [if_neg h1] at hok
    by_cases h2 : stored.players.black = none ∧ stored.players.white ≠ none
    · exact Or.inl h2
    rw [if_neg h2] at hok
    by_cases h3 : stored.players.white = none ∧ stored.players.black ≠ none
    · exact Or.inr h3
    rw [if_neg h3] at hok
    exact absurd hok (by simp)

theorem joinGame_gameFull_both_empty_witness :
    joinGame emptyPlayersGame "p" = Except.error GameError.gameFull :=
  joinGame_gameFull_both_empty.1 emptyPlayersGame "p" rfl rfl

/-! ### C3: the frame effect of applyMove -/

theorem Position_mk_eq_iff (r c : Int) (q : Position) :
    (⟨r, c⟩ : Position) = q ↔ r = q.row ∧ c = q.col := by
  cases q
  simp [Position.mk.injEq]

theorem setRow_length (row : List (Option Piece)) (c : Nat) (v : Option Piece) :
    (setRow row c v).length = row.length := by
  induction row generalizing c with
  | nil => rfl
  | cons x xs ih =>
    cases c with
    | zero => rfl
    | succ n => simp [setRow, ih]

theorem getRow_setRow_self (row : List (Option Piece)) (c : Nat) (v : Option Piece)
    (h : c < row.length) : getRow (setRow row c v) c = v := by
  induction row generalizing c with
  | nil => simp at h
  | cons x xs ih =>
    cases c with
    | zero => rfl
    | succ n => exact ih n (by simpa using h)

theorem getRow_setRow_ne (row : List (Option Piece)) (c c2 : Nat) (v : Option Piece)
    (h : c ≠ c2) : getRow (setRow row c v) c2 = getRow row c2 := by
  induction row generalizing c c2 with
  | nil => rfl
  | cons x xs ih =>
    cases c with
    | zero =>
      cases c2 with
      | zero => exact absurd rfl h
      | succ m => rfl
    | succ n =>
      cases c2 with
      | zero => rfl
      | succ m => exact ih n m (by omega)

theorem setBoardN_length (b : BoardState) (r c : Nat) (v : Option Piece) :
    (setBoardN b r c v).length = b.length := by
  induction b generalizing r with
  | nil => rfl
  | cons row rest ih =>
    cases r with
    | zero => rfl
    | succ n => simp [setBoardN, ih]

theorem bgetN_setBoardN_self (b : BoardState) (r c : Nat) (v : Option Piece)
    (hr : r < b.length) (hc : ∀ row ∈ b, c < row.length) :
    bgetN (setBoardN b r c v) r c = v := by
  induction b generalizing r with
  | nil => simp at hr
  | cons row rest ih =>
    cases r with
    | zero => exact getRow_setRow_self row c v (hc row (List.mem_cons_self _ _))
    | succ n =>
      exact ih n (by simpa using hr) fun row2 h => hc row2 (List.mem_cons_of_mem _ h)

theorem bgetN_setBoardN_ne (b : BoardState) (r c r2 c2 : Nat) (v : Option Piece)
    (h : r ≠ r2 ∨ c ≠ c2) :
    bgetN (setBoardN b r c v) r2 c2 = bgetN b r2 c2 := by
  induction b generalizing r r2 with
  | nil => rfl
  | cons row rest ih =>
    cases r with
    | zero =>
      cases r2 with
      | zero =>
        rcases h with h | h
        · exact absurd rfl h
        · exact getRow_setRow_ne row c c2 v h
      | succ m => rfl
    | succ n =>
      cases r2 with
      | zero => rfl
      | succ m =>
        rcases h with h | h
        · exact ih n m (Or.inl (by omega))
        · exact ih n m (Or.inr h)

theorem mem_setBoardN (b : BoardState) (r c : Nat) (v : Option Piece) :
    ∀ row ∈ setBoardN b r c v, row ∈ b ∨ ∃ row0, row0 ∈ b ∧ row = setRow row0 c v := by
  induction b generalizing r with
  | nil =>
    intro row h
    exact absurd h (by simp [setBoardN])
  | cons row1 rest ih =>
    cases r with
    | zero =>
      intro row h
      rcases List.mem_cons.mp h with h | h
      · exact Or.inr ⟨row1, List.mem_cons_self _ _, h⟩
      · exact Or.inl (List.mem_cons_of_mem _ h)
    | succ n =>
      intro row h
      rcases List.mem_cons.mp h with h | h
      · exact Or.inl (h ▸ List.mem_cons_self _ _)
      · rcases ih n row h with h2 | ⟨row0, h0, he⟩
        · exact Or.inl (List.mem_cons_of_mem _ h2)
        · exact Or.inr ⟨row0, List.mem_cons_of_mem _ h0, he⟩

theorem setBoardN_WF {b : BoardState} (hwf : WF b) (r c : Nat) (v : Option Piece) :
    WF (setBoardN b r c v) := by
  obtain ⟨hl, hrows⟩ := hwf
  refine ⟨by rw [setBoardN_length]; exact hl, ?_⟩
  intro row hrow
  rcases mem_setBoardN b r c v row hrow with h | ⟨row0, h0, he⟩
  · exact hrows row h
  · rw [he, setRow_length]
    exact hrows row0 h0

theorem bset_WF {b : BoardState} (hwf : WF b) (q : Position) (v : Option Piece) :
    WF (bset b q v) := by
  unfold bset
  split
  · exact setBoardN_WF hwf _ _ v
  · exact hwf

theorem bget_bset_self {b : BoardState} (hwf : WF b) (q : Position) (v : Option Piece)
    (h : inBounds q) : bget (bset b q v) q.row q.col = v := by
  unfold inBounds at h
  unfold bget bset
  rw [if_pos h, if_pos h]
  apply bgetN_setBoardN_self
  · rw [hwf.1]
    omega
  · intro row hrow
    rw [hwf.2 row hrow]
    omega

theorem bget_bset_ne (b : BoardState) (q : Position) (v : Option Piece) (r c : Int)
    (h : ¬(r = q.row ∧ c = q.col)) : bget (bset b q v) r c = bget b r c := by
  unfold bset
  split
  next hq =>
    unfold bget
    split
    next hrc =>
      apply bgetN_setBoardN_ne
      rcases not_and_or.mp h with h2 | h2
      · left
        omega
      · right
        omega
    · rfl
  · rfl

theorem cloneBoard_id (b : BoardState) : cloneBoard b = b := by
  unfold cloneBoard
  simp

theorem bget_foldl_clear :
    ∀ (caps : List Position) (b : BoardState), WF b → ∀ r c : Int,
      bget (caps.foldl (fun acc q => bset acc q none) b) r c =
        if (⟨r, c⟩ : Position) ∈ caps then none else bget b r c := by
  intro caps
  induction caps with
  | nil =>
    intro b _ r c
    simp
  | cons p rest ih =>
    intro b hwf r c
    rw [List.foldl_cons, ih _ (bset_WF hwf p none) r c]
    by_cases hmem : (⟨r, c⟩ : Position) ∈ rest
    · rw [if_pos hmem, if_pos (List.mem_cons_of_mem _ hmem)]
    · rw [if_neg hmem]
      by_cases hp : (⟨r, c⟩ : Position) = p
      · rw [if_pos (hp ▸ List.mem_cons_self _ _)]
        subst hp
        by_cases hb : inBounds (⟨r, c⟩ : Position)
        · simpa using bget_bset_self hwf ⟨r, c⟩ none hb
        · have hg : ¬(0 ≤ r ∧ r < 8 ∧ 0 ≤ c ∧ c < 8) := hb
          unfold bget
          rw [if_neg hg]
      · rw [if_neg (by simp [hp, hmem])]
        refine bget_bset_ne b p none r c ?_
        intro hand
        exact hp ((Position_mk_eq_iff r c p).mpr hand)

/-- C3: `applyMove` returns a board in which the piece has moved from
`fromP` to `toP` with king flag `isKing OR becomesKing`, every square listed
in `captures` has been emptied, and every other square is unchanged. The
input board itself is untouched (the embedding is a pure function of it). -/
theorem applyMove_spec (board : BoardState) (move : Move) (p : Piece)
    (hwf : WF board) (hp : bgetP board move.fromP = some p) (hto : inBounds move.toP) :
    ∀ r c : Int,
      bget (applyMove board move) r c =
        if (⟨r, c⟩ : Position) ∈ move.captures then none
        else if (⟨r, c⟩ : Position) = move.toP then
          some ⟨p.color, p.isKing || move.becomesKing⟩
        else if (⟨r, c⟩ : Position) = move.fromP then none
        else bget board r c := by
  have hfb : inBounds move.fromP := by
    unfold bgetP bget at hp
    by_contra hno
    have hno2 : ¬(0 ≤ move.fromP.row ∧ move.fromP.row < 8 ∧ 0 ≤ move.fromP.col ∧
        move.fromP.col < 8) := hno
    rw [if_neg hno2] at hp
    exact Option.noConfusion hp
  intro r c
  unfold applyMove
  rw [cloneBoard_id]
  simp only []
  rw [hp]
  simp only []
  have hwf1 : WF (bset board move.fromP none) := bset_WF hwf _ _
  have hwf2 : WF (bset (bset board move.fromP none) move.toP
      (some ⟨p.color, p.isKing || move.becomesKing⟩)) := bset_WF hwf1 _ _
  rw [bget_foldl_clear move.captures _ hwf2 r c]
  by_cases hcap : (⟨r, c⟩ : Position) ∈ move.captures
  · rw [if_pos hcap, if_pos hcap]
  · rw [if_neg hcap, if_neg hcap]
    by_cases htoeq : (⟨r, c⟩ : Position) = move.toP
    · rw [if_pos htoeq]
      have hself := bget_bset_self hwf1 move.toP
        (some ⟨p.color, p.isKing || move.becomesKing⟩) hto
      obtain ⟨h1, h2⟩ := (Position_mk_eq_iff r c move.toP).mp htoeq
      rw [← h1, ← h2] at hself
      exact hself
    · rw [if_neg htoeq]
      rw [bget_bset_ne _ move.toP _ r c fun hand => htoeq ((Position_mk_eq_iff r c _).mpr hand)]
      by_cases hfromeq : (⟨r, c⟩ : Position) = move.fromP
      · rw [if_pos hfromeq]
        have hself := bget_bset_self hwf move.fromP none hfb
        obtain ⟨h1, h2⟩ := (Position_mk_eq_iff r c move.fromP).mp hfromeq
        rw [← h1, ← h2] at hself
        exact hself
      · rw [if_neg hfromeq]
        exact bget_bset_ne _ move.fromP _ r c
          fun hand => hfromeq ((Position_mk_eq_iff r c _).mpr hand)

theorem applyMove_spec_witness :
    bget (applyMove c5board (Move.mk ⟨5, 4⟩ ⟨1, 0⟩ [⟨4, 3⟩, ⟨2, 1⟩] [⟨3, 2⟩, ⟨1, 0⟩] false))
        1 0 = some ⟨PlayerColor.WHITE, false⟩ := by
  rw [applyMove_spec c5board (Move.mk ⟨5, 4⟩ ⟨1, 0⟩ [⟨4, 3⟩, ⟨2, 1⟩] [⟨3, 2⟩, ⟨1, 0⟩] false)
    ⟨PlayerColor.WHITE, false⟩ (by decide) (by decide) (by decide) 1 0]
  decide

/-! ### C7: the dark-square invariant -/

theorem dir_sum_even {d : Int × Int} (hd : d ∈ directions) : ∃ k : Int, d.1 + d.2 = 2 * k := by
  fin_cases hd
  · exact ⟨-1, by norm_num⟩
  · exact ⟨0, by norm_num⟩
  · exact ⟨0, by norm_num⟩
  · exact ⟨1, by norm_num⟩

theorem ray_parity {p : Position} {d : Int × Int} {q : Position} (hd : d ∈ directions)
    (hq : q ∈ ray p d) : (q.row + q.col) % 2 = (p.row + p.col) % 2 := by
  unfold ray at hq
  have hq2 := (List.takeWhile_sublist _).subset hq
  rw [List.mem_map] at hq2
  obtain ⟨i, _, rfl⟩ := hq2
  obtain ⟨k, hk⟩ := dir_sum_even hd
  show (p.row + d.1 * ((i : Int) + 1) + (p.col + d.2 * ((i : Int) + 1))) % 2 = _
  have heq : p.row + d.1 * ((i : Int) + 1) + (p.col + d.2 * ((i : Int) + 1)) =
      p.row + p.col + 2 * (k * ((i : Int) + 1)) := by
    linear_combination ((i : Int) + 1) * hk
  rw [heq, Int.add_mul_emod_self_left]

theorem getSimpleMoves_parity {board : BoardState} {fromP : Position} {piece : Piece}
    {m : Move} (hm : m ∈ getSimpleMoves board fromP piece) :
    (m.toP.row + m.toP.col) % 2 = (fromP.row + fromP.col) % 2 := by
  unfold getSimpleMoves at hm
  rw [List.mem_flatMap] at hm
  obtain ⟨d, hd, hm⟩ := hm
  have hdirs : d ∈ directions := by
    simp only [directions]
    revert hd
    split
    · intro h
      simpa using h
    · split
      · intro h
        simp at h ⊢
        tauto
      · intro h
        simp at h ⊢
        tauto
  by_cases hk : piece.isKing = true
  · rw [if_pos hk] at hm
    obtain ⟨q, hq, rfl⟩ := List.mem_map.mp hm
    exact ray_parity hdirs ((List.takeWhile_sublist _).subset hq)
  · rw [if_neg hk] at hm
    simp only [] at hm
    split at hm
    · rw [List.mem_singleton] at hm
      subst hm
      show (fromP.row + d.1 + (fromP.col + d.2)) % 2 = _
      obtain ⟨k, hk2⟩ := dir_sum_even hdirs
      have heq : fromP.row + d.1 + (fromP.col + d.2) = fromP.row + fromP.col + 2 * k := by
        linear_combination hk2
      rw [heq, Int.add_mul_emod_self_left]
    · simp at hm

theorem getCaptureMovesF_parity (fuel : Nat) :
    ∀ (board : BoardState) (currentPos : Position) (piece : Piece)
      (cc cip cp : List Position) (orig : Position) (m : Move),
      (currentPos.row + currentPos.col) % 2 = (orig.row + orig.col) % 2 →
      m ∈ getCaptureMovesF fuel board currentPos piece cc cip cp orig →
      (m.toP.row + m.toP.col) % 2 = (orig.row + orig.col) % 2 := by
  induction fuel with
  | zero =>
    intro _ _ _ _ _ _ _ _ _ hm
    simp [getCaptureMovesF] at hm
  | succ n ih =>
    intro board pos piece cc cip cp orig m hpar hm
    obtain ⟨d, hd, hm⟩ := getCaptureMovesF_mem hm
    by_cases hk : piece.isKing = true
    · rw [if_pos hk] at hm
      obtain ⟨q, land, cell, _, _, _, _, hlandray, hmem⟩ := kingCapturesInDir_mem hm
      have hlp : (land.row + land.col) % 2 = (orig.row + orig.col) % 2 := by
        rw [ray_parity hd hlandray]
        exact hpar
      rcases emitOrRecurse_mem hmem with ⟨_, rfl⟩ | hsub
      · exact hlp
      · exact ih board land piece _ _ _ orig m hlp hsub
    · rw [if_neg hk] at hm
      obtain ⟨mid, _, _, _, hmem⟩ := simpleCaptureInDir_mem hm
      have hlp : ((pos.row + 2 * d.1) + (pos.col + 2 * d.2)) % 2 =
          (orig.row + orig.col) % 2 := by
        have heq : pos.row + 2 * d.1 + (pos.col + 2 * d.2) =
            pos.row + pos.col + 2 * (d.1 + d.2) := by ring
        rw [heq, Int.add_mul_emod_self_left, hpar]
      rcases emitOrRecurse_mem hmem with ⟨_, rfl⟩ | hsub
      · exact hlp
      · exact ih board _ _ _ _ _ orig m hlp hsub

theorem getRow_ge_length (row : List (Option Piece)) (c : Nat) (h : row.length ≤ c) :
    getRow row c = none := by
  induction row generalizing c with
  | nil => rfl
  | cons x xs ih =>
    cases c with
    | zero => simp at h
    | succ n => exact ih n (by simpa using h)

theorem bgetN_ge_length (b : BoardState) (r c : Nat) (h : b.length ≤ r) :
    bgetN b r c = none := by
  induction b generalizing r with
  | nil => rfl
  | cons row rest ih =>
    cases r with
    | zero => simp at h
    | succ n => exact ih n (by simpa using h)

theorem bgetN_mem_rows {b : BoardState} {r c : Nat} {p : Piece}
    (h : bgetN b r c = some p) : ∃ row, row ∈ b ∧ getRow row c = some p := by
  induction b generalizing r with
  | nil => exact Option.noConfusion h
  | cons row rest ih =>
    cases r with
    | zero => exact ⟨row, List.mem_cons_self _ _, h⟩
    | succ n =>
      obtain ⟨row2, h2, h3⟩ := ih h
      exact ⟨row2, List.mem_cons_of_mem _ h2, h3⟩

theorem initializeBoard_darkOnly : darkOnly initializeBoard := by
  intro r c p hp
  have hwf : WF initializeBoard := by decide
  by_cases hr : r < 8
  · by_cases hc : c < 8
    · have hbound : ∀ r2 < 8, ∀ c2 < 8, ∀ p2 : Piece,
          bgetN initializeBoard r2 c2 = some p2 → (r2 + c2) % 2 = 1 := by decide
      exact hbound r hr c hc p hp
    · exfalso
      obtain ⟨row, hrow, hget⟩ := bgetN_mem_rows hp
      rw [getRow_ge_length row c (by rw [hwf.2 row hrow]; omega)] at hget
      exact Option.noConfusion hget
  · exfalso
    rw [bgetN_ge_length initializeBoard r c (by rw [hwf.1]; omega)] at hp
    exact Option.noConfusion hp

theorem getRow_setRow_cases (row : List (Option Piece)) (C c : Nat) (v : Option Piece) :
    getRow (setRow row C v) c = getRow row c ∨
      (C = c ∧ getRow (setRow row C v) c = v) := by
  induction row generalizing C c with
  | nil => exact Or.inl rfl
  | cons x xs ih =>
    cases C with
    | zero =>
      cases c with
      | zero => exact Or.inr ⟨rfl, rfl⟩
      | succ m => exact Or.inl rfl
    | succ n =>
      cases c with
      | zero => exact Or.inl rfl
      | succ m =>
        rcases ih n m with h | ⟨h1, h2⟩
        · exact Or.inl h
        · exact Or.inr ⟨by omega, h2⟩

theorem bgetN_setBoardN_cases (b : BoardState) (R C r c : Nat) (v : Option Piece) :
    bgetN (setBoardN b R C v) r c = bgetN b r c ∨
      (R = r ∧ C = c ∧ bgetN (setBoardN b R C v) r c = v) := by
  induction b generalizing R r with
  | nil => exact Or.inl rfl
  | cons row rest ih =>
    cases R with
    | zero =>
      cases r with
      | zero =>
        rcases getRow_setRow_cases row C c v with h | ⟨h1, h2⟩
        · exact Or.inl h
        · exact Or.inr ⟨rfl, h1, h2⟩
      | succ m => exact Or.inl rfl
    | succ n =>
      cases r with
      | zero => exact Or.inl rfl
      | succ m =>
        rcases ih n m with h | ⟨h1, h2, h3⟩
        · exact Or.inl h
        · exact Or.inr ⟨by omega, h2, h3⟩

theorem bgetN_bset_cases (b : BoardState) (q : Position) (v : Option Piece) (r c : Nat) :
    bgetN (bset b q v) r c = bgetN b r c ∨
      (q.row = (r : Int) ∧ q.col = (c : Int) ∧ bgetN (bset b q v) r c = v) := by
  unfold bset
  split
  next hg =>
    rcases bgetN_setBoardN_cases b q.row.toNat q.col.toNat r c v with h | ⟨h1, h2, h3⟩
    · exact Or.inl h
    · exact Or.inr ⟨by omega, by omega, h3⟩
  · exact Or.inl rfl

theorem bgetN_foldl_clear_some :
    ∀ (caps : List Position) (b : BoardState) (r c : Nat) (p : Piece),
      bgetN (caps.foldl (fun acc q => bset acc q none) b) r c = some p →
      bgetN b r c = some p := by
  intro caps
  induction caps with
  | nil => intro b r c p h; exact h
  | cons q rest ih =>
    intro b r c p h
    rw [List.foldl_cons] at h
    have h2 := ih _ r c p h
    rcases bgetN_bset_cases b q none r c with h3 | ⟨_, _, h3⟩
    · rw [← h3]
      exact h2
    · rw [h3] at h2
      exact Option.noConfusion h2

theorem applyMove_darkOnly {b : BoardState} {m : Move} (hd : darkOnly b)
    (hto : (m.toP.row + m.toP.col) % 2 = 1) : darkOnly (applyMove b m) := by
  intro r c p hp
  unfold applyMove at hp
  simp only [cloneBoard_id] at hp
  split at hp
  · exact hd r c p hp
  next p0 hp0 =>
    have h2 := bgetN_foldl_clear_some m.captures _ r c p hp
    rcases bgetN_bset_cases (bset b m.fromP none) m.toP
        (some ⟨p0.color, p0.isKing || m.becomesKing⟩) r c with h3 | ⟨h31, h32, _⟩
    · rw [h3] at h2
      rcases bgetN_bset_cases b m.fromP none r c with h4 | ⟨_, _, h4⟩
      · rw [h4] at h2
        exact hd r c p h2
      · rw [h4] at h2
        exact Option.noConfusion h2
    · rw [h31, h32] at hto
      omega
  
theorem calculateAllowedMoves_toP_parity {board : BoardState} {turn : PlayerColor} {m : Move}
    (hd : darkOnly board) (hm : m ∈ calculateAllowedMoves board turn) :
    (m.toP.row + m.toP.col) % 2 = 1 := by
  obtain ⟨rc, _, piece, hpiece, _, hcap | hsim⟩ := calculateAllowedMoves_mem hm
  · have hpos := hd rc.1 rc.2 piece hpiece
    have := getCaptureMovesF_parity 64 board ⟨(rc.1 : Int), (rc.2 : Int)⟩ piece [] [] []
      ⟨(rc.1 : Int), (rc.2 : Int)⟩ m rfl hcap
    rw [this]
    show ((rc.1 : Int) + (rc.2 : Int)) % 2 = 1
    omega
  · have hpos := hd rc.1 rc.2 piece hpiece
    have := getSimpleMoves_parity hsim
    rw [this]
    show ((rc.1 : Int) + (rc.2 : Int)) % 2 = 1
    omega

/-- C7: `initializeBoard` places pieces only on squares where row+col is odd,
and every board reachable from it by repeatedly applying a move returned by
`calculateAllowedMoves` via `applyMove` again has pieces only on dark
squares. -/
theorem reachable_darkOnly (b : BoardState) (h : Reachable b) : darkOnly b := by
  induction h with
  | init => exact initializeBoard_darkOnly
  | step b turn m hb hm ih =>
    exact applyMove_darkOnly ih (calculateAllowedMoves_toP_parity ih hm)

theorem reachable_darkOnly_witness : darkOnly initializeBoard :=
  reachable_darkOnly initializeBoard Reachable.init

/-! ### C5: capture chains are emitted only at leaves -/

theorem ray_inBounds {p : Position} {d : Int × Int} {q : Position} (hq : q ∈ ray p d) :
    inBounds q := by
  unfold ray at hq
  have h := List.mem_takeWhile_imp hq
  exact of_decide_eq_true h

theorem bgetP_some_inBounds {b : BoardState} {q : Position} {p : Piece}
    (h : bgetP b q = some p) : inBounds q := by
  unfold bgetP bget at h
  by_contra hno
  have hno2 : ¬(0 ≤ q.row ∧ q.row < 8 ∧ 0 ≤ q.col ∧ q.col < 8) := hno
  rw [if_neg hno2] at h
  exact Option.noConfusion h

theorem mem_allPositions {q : Position} : q ∈ allPositions ↔ inBounds q := by
  unfold allPositions inBounds
  constructor
  · intro h
    rw [List.mem_flatMap] at h
    obtain ⟨r, hr, h⟩ := h
    rw [List.mem_map] at h
    obtain ⟨c, hc, rfl⟩ := h
    rw [List.mem_range] at hr
    rw [List.mem_range] at hc
    dsimp only
    refine ⟨by omega, by omega, by omega, by omega⟩
  · rintro ⟨h1, h2, h3, h4⟩
    rw [List.mem_flatMap]
    refine ⟨q.row.toNat, by rw [List.mem_range]; omega, ?_⟩
    rw [List.mem_map]
    refine ⟨q.col.toNat, by rw [List.mem_range]; omega, ?_⟩
    cases q
    dsimp only at h1 h2 h3 h4 ⊢
    rw [Position.mk.injEq]
    constructor
    · omega
    · omega

theorem cip_full {cip : List Position} (hnd : cip.Nodup) (hin : ∀ q ∈ cip, inBounds q)
    (hlen : 64 ≤ cip.length) : ∀ q : Position, inBounds q → q ∈ cip := by
  intro q hq
  by_contra hnot
  have hsub : (q :: cip) ⊆ allPositions := by
    intro x hx
    rcases List.mem_cons.mp hx with rfl | hx
    · exact mem_allPositions.mpr hq
    · exact mem_allPositions.mpr (hin x hx)
  have hnd2 : (q :: cip).Nodup := List.nodup_cons.mpr ⟨hnot, hnd⟩
  have hle := (hnd2.subperm hsub).length_le
  have hap : allPositions.length = 64 := by decide
  rw [hap, List.length_cons] at hle
  omega

theorem emitOrRecurse_ne_nil (cont : CaptureRec) (board : BoardState)
    (cc cip cp : List Position) (orig q land : Position) (nextPiece : Piece) (bk : Bool) :
    emitOrRecurse cont board cc cip cp orig q land nextPiece bk ≠ [] := by
  unfold emitOrRecurse
  simp only []
  split
  · simp
  next h => exact h

theorem kingCapturesInDir_nil_iff (cont cont2 : CaptureRec) (board : BoardState)
    (currentPos : Position) (piece : Piece) (cc cip cp : List Position) (orig : Position)
    (d : Int × Int) :
    kingCapturesInDir cont board currentPos piece cc cip cp orig d = [] ↔
      kingCapturesInDir cont2 board currentPos piece cc cip cp orig d = [] := by
  unfold kingCapturesInDir
  simp only []
  split
  · simp
  next q after hdrop =>
    split
    · simp
    next cell hcell =>
      split
      · simp
      · rw [List.flatMap_eq_nil_iff, List.flatMap_eq_nil_iff]
        constructor
        · intro h land hland
          exact absurd (h land hland)
            (emitOrRecurse_ne_nil cont board cc cip cp orig q land piece true)
        · intro h land hland
          exact absurd (h land hland)
            (emitOrRecurse_ne_nil cont2 board cc cip cp orig q land piece true)

theorem simpleCaptureInDir_nil_iff (cont cont2 : CaptureRec) (board : BoardState)
    (currentPos : Position) (piece : Piece) (cc cip cp : List Position) (orig : Position)
    (d : Int × Int) :
    simpleCaptureInDir cont board currentPos piece cc cip cp orig d = [] ↔
      simpleCaptureInDir cont2 board currentPos piece cc cip cp orig d = [] := by
  unfold simpleCaptureInDir
  simp only []
  split
  · split
    · simp
    · split
      · simp
      · split
        · simp
        · split
          · exact iff_of_false
              (emitOrRecurse_ne_nil cont board cc cip cp orig _ _ _ _)
              (emitOrRecurse_ne_nil cont2 board cc cip cp orig _ _ _ _)
          · simp
  · simp

theorem getCaptureMovesF_succ_nil_iff (n n2 : Nat) (board : BoardState)
    (currentPos : Position) (piece : Piece) (cc cip cp : List Position) (orig : Position) :
    getCaptureMovesF (n + 1) board currentPos piece cc cip cp orig = [] ↔
      getCaptureMovesF (n2 + 1) board currentPos piece cc cip cp orig = [] := by
  unfold getCaptureMovesF
  rw [List.flatMap_eq_nil_iff, List.flatMap_eq_nil_iff]
  constructor
  · intro h d hd
    have h2 := h d hd
    by_cases hk : piece.isKing = true
    · rw [if_pos hk] at h2 ⊢
      exact (kingCapturesInDir_nil_iff _ _ board currentPos piece cc cip cp orig d).mp h2
    · rw [if_neg hk] at h2 ⊢
      exact (simpleCaptureInDir_nil_iff _ _ board currentPos piece cc cip cp orig d).mp h2
  · intro h d hd
    have h2 := h d hd
    by_cases hk : piece.isKing = true
    · rw [if_pos hk] at h2 ⊢
      exact (kingCapturesInDir_nil_iff _ _ board currentPos piece cc cip cp orig d).mp h2
    · rw [if_neg hk] at h2 ⊢
      exact (simpleCaptureInDir_nil_iff _ _ board currentPos piece cc cip cp orig d).mp h2

theorem getCaptureMovesF_one_nil_of_full (board : BoardState) (currentPos : Position)
    (piece : Piece) (cc cip cp : List Position) (orig : Position)
    (hfull : ∀ q : Position, inBounds q → q ∈ cip) :
    getCaptureMovesF 1 board currentPos piece cc cip cp orig = [] := by
  show getCaptureMovesF (0 + 1) board currentPos piece cc cip cp orig = []
  unfold getCaptureMovesF
  rw [List.flatMap_eq_nil_iff]
  intro d hd
  split
  · unfold kingCapturesInDir
    simp only []
    split
    · rfl
    next q after hdrop =>
      have hq : q ∈ ray currentPos d := by
        have hsub : List.Sublist (q :: after) (ray currentPos d) := by
          rw [← hdrop]
          exact List.dropWhile_sublist _
        exact hsub.subset (List.mem_cons_self _ _)
      split
      · rfl
      next cell hcell =>
        rw [if_pos (Or.inr (hfull q (ray_inBounds hq)))]
  · unfold simpleCaptureInDir
    simp only []
    split
    · split
      · rfl
      next mid hmid =>
        by_cases hc : mid.color = piece.color
        · rw [if_pos hc]
        · rw [if_neg hc, if_pos (hfull _ (bgetP_some_inBounds hmid))]
    · rfl

set_option maxHeartbeats 1000000 in
theorem getCaptureMovesF_leaf (fuel : Nat) :
    ∀ (board : BoardState) (currentPos : Position) (piece : Piece)
      (cc cip cp : List Position) (orig : Position) (m : Move),
      cc = cip → cip.Nodup → (∀ q ∈ cip, inBounds q) → 64 ≤ fuel + cip.length →
      m ∈ getCaptureMovesF fuel board currentPos piece cc cip cp orig →
      getCaptureMovesF 1 board m.toP ⟨piece.color, m.becomesKing⟩ m.captures m.captures
        m.path orig = [] := by
  induction fuel with
  | zero =>
    intro _ _ _ _ _ _ _ _ _ _ _ _ hm
    simp [getCaptureMovesF] at hm
  | succ n ih =>
    intro board pos piece cc cip cp orig m hcc hnd hin hfuel hm
    obtain ⟨d, hd, hm⟩ := getCaptureMovesF_mem hm
    by_cases hk : piece.isKing = true
    · rw [if_pos hk] at hm
      obtain ⟨q, land, cell, hcell, hene, hqcip, hqray, _, hmem⟩ := kingCapturesInDir_mem hm
      have hqin : inBounds q := ray_inBounds hqray
      have hnd2 : (cip ++ [q]).Nodup := by
        simp [List.nodup_append, hnd, hqcip]
      have hin2 : ∀ x ∈ cip ++ [q], inBounds x := by
        intro x hx
        rcases List.mem_append.mp hx with hx | hx
        · exact hin x hx
        · rw [List.mem_singleton] at hx
          subst hx
          exact hqin
      have hlen2 : 64 ≤ n + (cip ++ [q]).length := by
        rw [List.length_append]
        simp only [List.length_singleton]
        omega
      rcases emitOrRecurse_mem hmem with ⟨hsubnil, rfl⟩ | hsub
      · have hpe : (Piece.mk piece.color true : Piece) = piece := by
          cases piece
          rw [Piece.mk.injEq]
          exact ⟨rfl, hk.symm⟩
        show getCaptureMovesF 1 board land ⟨piece.color, true⟩ (cc ++ [q]) (cc ++ [q])
          (cp ++ [land]) orig = []
        rw [hpe, hcc]
        rw [hcc] at hsubnil
        cases n with
        | zero =>
          apply getCaptureMovesF_one_nil_of_full
          apply cip_full hnd2 hin2
          rw [List.length_append]
          simp only [List.length_singleton]
          omega
        | succ n2 =>
          exact (getCaptureMovesF_succ_nil_iff n2 0 board land piece (cip ++ [q])
            (cip ++ [q]) (cp ++ [land]) orig).mp hsubnil
      · exact ih board land piece (cc ++ [q]) (cip ++ [q]) (cp ++ [land]) orig m
          (by rw [hcc]) hnd2 hin2 hlen2 hsub
    · rw [if_neg hk] at hm
      obtain ⟨mid, hmid, hene, hqcip, hmem⟩ := simpleCaptureInDir_mem hm
      have hqin : inBounds (⟨pos.row + d.1, pos.col + d.2⟩ : Position) :=
        bgetP_some_inBounds hmid
      have hnd2 : (cip ++ [(⟨pos.row + d.1, pos.col + d.2⟩ : Position)]).Nodup := by
        simp [List.nodup_append, hnd, hqcip]
      have hin2 : ∀ x ∈ cip ++ [(⟨pos.row + d.1, pos.col + d.2⟩ : Position)], inBounds x := by
        intro x hx
        rcases List.mem_append.mp hx with hx | hx
        · exact hin x hx
        · rw [List.mem_singleton] at hx
          subst hx
          exact hqin
      have hlen2 : 64 ≤ n + (cip ++ [(⟨pos.row + d.1, pos.col + d.2⟩ : Position)]).length := by
        rw [List.length_append]
        simp only [List.length_singleton]
        omega
      rcases emitOrRecurse_mem hmem with ⟨hsubnil, rfl⟩ | hsub
      · show getCaptureMovesF 1 board _
          ⟨piece.color, decide (reachedPromotionRow piece.color (pos.row + 2 * d.1)) ||
            piece.isKing⟩ _ _ _ orig = []
        rw [hcc]
        rw [hcc] at hsubnil
        cases n with
        | zero =>
          apply getCaptureMovesF_one_nil_of_full
          apply cip_full hnd2 hin2
          rw [List.length_append]
          simp only [List.length_singleton]
          omega
        | succ n2 =>
          exact (getCaptureMovesF_succ_nil_iff n2 0 board
            ⟨pos.row + 2 * d.1, pos.col + 2 * d.2⟩
            ⟨piece.color, decide (reachedPromotionRow piece.color (pos.row + 2 * d.1)) ||
              piece.isKing⟩
            (cip ++ [⟨pos.row + d.1, pos.col + d.2⟩])
            (cip ++ [⟨pos.row + d.1, pos.col + d.2⟩])
            (cp ++ [⟨pos.row + 2 * d.1, pos.col + 2 * d.2⟩]) orig).mp hsubnil
      · exact ih board ⟨pos.row + 2 * d.1, pos.col + 2 * d.2⟩
          ⟨piece.color, decide (reachedPromotionRow piece.color (pos.row + 2 * d.1)) ||
            piece.isKing⟩
          (cc ++ [⟨pos.row + d.1, pos.col + d.2⟩])
          (cip ++ [⟨pos.row + d.1, pos.col + d.2⟩])
          (cp ++ [⟨pos.row + 2 * d.1, pos.col + 2 * d.2⟩]) orig m (by rw [hcc]) hnd2 hin2
          hlen2 hsub

/-- C5: the capture search emits a move only at leaves — every move returned
by a top-level `getCaptureMoves` call admits no further capture from its
landing square (the continuation search from `toP` with the chain already
captured finds nothing), so a completed prefix of a longer chain is never
returned — and on the spec scenario (white pawn at (5,4), black pawns at
(4,3) and (2,1)) only the full two-capture chain is returned. -/
theorem getCaptureMoves_leaf_only :
    (∀ (board : BoardState) (startPos : Position) (piece : Piece) (m : Move),
        m ∈ getCaptureMoves board startPos piece [] [] [] startPos →
        getCaptureMovesF 1 board m.toP ⟨piece.color, m.becomesKing⟩ m.captures m.captures
          m.path startPos = []) ∧
      calculateAllowedMoves c5board PlayerColor.WHITE =
        [Move.mk ⟨5, 4⟩ ⟨1, 0⟩ [⟨4, 3⟩, ⟨2, 1⟩] [⟨3, 2⟩, ⟨1, 0⟩] false] := by
  constructor
  · intro board startPos piece m hm
    exact getCaptureMovesF_leaf 64 board startPos piece [] [] [] startPos m rfl
      List.nodup_nil (by simp) (by simp) hm
  · decide

theorem getCaptureMoves_leaf_only_witness :
    getCaptureMovesF 1 c5board ⟨1, 0⟩ ⟨PlayerColor.WHITE, false⟩ [⟨4, 3⟩, ⟨2, 1⟩]
      [⟨4, 3⟩, ⟨2, 1⟩] [⟨3, 2⟩, ⟨1, 0⟩] ⟨5, 4⟩ = [] :=
  getCaptureMoves_leaf_only.1 c5board ⟨5, 4⟩ ⟨PlayerColor.WHITE, false⟩
    (Move.mk ⟨5, 4⟩ ⟨1, 0⟩ [⟨4, 3⟩, ⟨2, 1⟩] [⟨3, 2⟩, ⟨1, 0⟩] false) (by decide)

end Shashki
